import Mathlib

/-!
Verification of the constrained Douglas-Peucker simplification engine
(`simplify_algorithm.py`): the data model (`SimGeom`, `RbResults`), the
farthest-point search (`find_farthest_point`), the three-part constraint
validator (`validate_constraints`), the stack-driven per-geometry loop
(`process_line`) and the outer pass loop (`_simplify_lines` / `reduce`).

External collaborators (the QGIS geometry engine, the `GsCollection`
spatial index, the `Epsilon` tolerance set and the `GeoSimUtil`
validators) live outside the source file; they are modelled from the
spec as an abstract `Engine` record of oracle functions, and the
development is parametric in that record.
-/

/-- A 2D point with exact coordinates (the embedding of `QgsPoint`). -/
abbrev Point : Type := ℚ × ℚ

/-- Default point returned by out-of-range vertex accesses. -/
def ptZero : Point := ((0 : ℚ), (0 : ℚ))

/-- Vertex access on a point sequence (`qgs_points[i]` / `vertexAt(i)`). -/
def vertexAt (pts : List Point) (i : ℕ) : Point := pts.getD i ptZero

/-- The geometry record to simplify (`RbGeom`): a stable identifier used for
spatial-index bookkeeping, the ordered vertex sequence, and the mutable
`is_simplest` flag. -/
structure SimGeom where
  id : ℕ
  points : List Point
  is_simplest : Bool
deriving DecidableEq

instance : Inhabited SimGeom := ⟨⟨0, [], true⟩⟩

/-- Embedding of `QgsLineString.isClosed()`: the line is non-empty and its
first and last vertices coincide. -/
def isClosedPts (pts : List Point) : Bool :=
  decide (0 < pts.length) && decide (vertexAt pts 0 = vertexAt pts (pts.length - 1))

/-- Modelled from the spec: the external collaborators of the engine, which
are repository code outside the shown source file. `dist` is the geometry
engine's point-to-chord distance, `seg_length` the length of a two-point
line, `zero_relative` the `Epsilon.ZERO_RELATIVE` tolerance derived from
the input extent, `get_segment_intersect` the `GsCollection` bounding-box
query returning the segments of the same geometry and of other geometries,
`unary_union` / `polygonize` / `is_simple` the geometry-engine operations
used by the sidedness test, `validate_simplicity` /
`validate_intersection` / `validate_sidedness` the `GeoSimUtil` relational
tests, and `validate_integrity` the debug self-check of the spatial
index. -/
structure Engine where
  dist : Point → Point → Point → ℚ
  seg_length : Point → Point → ℚ
  zero_relative : ℚ
  get_segment_intersect : ℕ → List Point → List (List Point) × List (List Point)
  validate_simplicity : List (List Point) → Point → Point → Bool
  validate_intersection : List (List Point) → Point → Point → Bool
  unary_union : List Point → List Point
  polygonize : List Point → List Point
  is_simple : List Point → Bool
  validate_sidedness : List (List Point) → List Point → Bool
  validate_integrity : List SimGeom → Bool

/-- Embedding of Python's `max` over a list of numbers (`max(distances)`);
returns `0` on the empty list, on which Python would raise instead. -/
def pyMax : List ℚ → ℚ
  | [] => 0
  | q :: qs => qs.foldl max q

/-- Embedding of Python's `list.index` (`distances.index(x)`): index of the
first occurrence of `x`; returns the length when `x` is absent, where
Python would raise instead. -/
def pyIndex : List ℚ → ℚ → ℕ
  | [], _ => 0
  | q :: qs, x => if q = x then 0 else pyIndex qs x + 1

/-- The list of engine distances from the chord `(pts[first], pts[last])` to
each interior point `pts[i]`, `i` in `range(first+1, last)` — the
`distances` list of `Simplify.find_farthest_point`. -/
def chordDists (e : Engine) (pts : List Point) (first last : ℕ) : List ℚ :=
  (List.range (last - (first + 1))).map
    (fun k => e.dist (vertexAt pts first) (vertexAt pts last) (vertexAt pts (first + 1 + k)))

/-- Embedding of `Simplify.find_farthest_point`: the farthest interior
point's index and distance for the section `[first, last]` of the line;
`(first, 0)` when the section has fewer than three points. -/
def find_farthest_point (e : Engine) (pts : List Point) (first last : ℕ) : ℕ × ℚ :=
  if first + 2 ≤ last then
    let distances := chordDists e pts first last
    let farthest_dist := pyMax distances
    let farthest_index := pyIndex distances farthest_dist + first + 1
    (farthest_index, farthest_dist)
  else
    (first, 0)

/-- The vertex span `[first, last]` of the live geometry — the `qgs_points`
list built at the top of `Simplify.validate_constraints`. -/
def subline_points (pts : List Point) (first last : ℕ) : List Point :=
  (List.range (last + 1 - first)).map (fun k => vertexAt pts (first + k))

/-- The diagnostic text pushed by `validate_constraints` for a
near-zero-length chord. -/
def degenerate_notice (p : Point) : String :=
  "Possibly non OGC simple feature at " ++ toString p.1 ++ "," ++ toString p.2 ++
    " use Fix Geometries"

/-- Embedding of `Simplify.validate_constraints`: the degeneracy guard for
closed geometries, then the simplicity test (skipped with a diagnostic
notice when the chord is shorter than `ZERO_RELATIVE`), then — only when
segments of other geometries were returned — the cross-feature
intersection test and the sidedness test on the polygonized closed-up
subline. Returns the boolean outcome together with the diagnostic notices
pushed to the feedback sink. -/
def validate_constraints (e : Engine) (sim_geom : SimGeom) (first last : ℕ) :
    Bool × List String :=
  let pts := sim_geom.points
  if isClosedPts pts ∧ (pts.length : ℤ) - ((last : ℤ) - (first : ℤ) - 1) ≤ 3 then
    (false, [])
  else
    let qgs_points := subline_points pts first last
    let p0 := qgs_points.headD ptZero
    let pn := qgs_points.getLastD ptZero
    let pair := e.get_segment_intersect sim_geom.id qgs_points
    let cv1n :=
      if e.zero_relative ≤ e.seg_length p0 pn then
        (e.validate_simplicity pair.1 p0 pn, ([] : List String))
      else
        (true, [degenerate_notice p0])
    let cv2 :=
      if cv1n.1 ∧ pair.2.length ≥ 1 then e.validate_intersection pair.2 p0 pn else cv1n.1
    let cv3 :=
      if cv2 ∧ pair.2.length ≥ 1 then
        let poly := e.polygonize (e.unary_union (qgs_points ++ [p0]))
        if e.is_simple poly then e.validate_sidedness pair.2 poly else false
      else cv2
    (cv3, cv1n.2)

/-- Modelled from the spec: `GsCollection.delete_vertex(sim_geom, i, j)`
removes the vertices at indices `i .. j` (inclusive) from the geometry's
live vertex sequence and replaces the corresponding segments of the
spatial index by the single chord segment; only the effect on the vertex
sequence is modelled. -/
def delete_vertex (g : SimGeom) (i j : ℕ) : SimGeom :=
  { g with points := g.points.take i ++ g.points.drop (j + 1) }

/-- Cost of one stack span, used for the termination measure of the work
loop. -/
def spanCost (s : ℕ × ℕ) : ℕ := 3 * (s.2 - s.1) - 2

/-- Termination measure for the work-stack loop of `process_line`. -/
def stackMeasure (st : List (ℕ × ℕ)) : ℕ := (st.map spanCost).sum + st.length

theorem foldl_max_mem (qs : List ℚ) (a : ℚ) : qs.foldl max a = a ∨ qs.foldl max a ∈ qs := by
  induction qs generalizing a with
  | nil => exact Or.inl rfl
  | cons q qs ih =>
    simp only [List.foldl_cons]
    rcases ih (max a q) with h | h
    · rcases max_cases a q with ⟨hm, _⟩ | ⟨hm, _⟩
      · exact Or.inl (h.trans hm)
      · exact Or.inr (by rw [h, hm]; exact List.mem_cons_self q qs)
    · exact Or.inr (List.mem_cons_of_mem q h)

theorem le_foldl_max (qs : List ℚ) (a : ℚ) :
    a ≤ qs.foldl max a ∧ ∀ x ∈ qs, x ≤ qs.foldl max a := by
  induction qs generalizing a with
  | nil => exact ⟨le_refl a, by simp⟩
  | cons q qs ih =>
    obtain ⟨h1, h2⟩ := ih (max a q)
    refine ⟨le_trans (le_max_left a q) h1, ?_⟩
    intro x hx
    rcases List.mem_cons.mp hx with rfl | hx
    · exact le_trans (le_max_right a x) h1
    · exact h2 x hx

theorem pyMax_mem {l : List ℚ} (h : l ≠ []) : pyMax l ∈ l := by
  cases l with
  | nil => exact absurd rfl h
  | cons q qs =>
    rcases foldl_max_mem qs q with h' | h'
    · rw [pyMax, h']; exact List.mem_cons_self q qs
    · exact List.mem_cons_of_mem q h'

theorem le_pyMax {l : List ℚ} {x : ℚ} (hx : x ∈ l) : x ≤ pyMax l := by
  cases l with
  | nil => exact absurd hx (List.not_mem_nil x)
  | cons q qs =>
    rcases List.mem_cons.mp hx with rfl | hx
    · exact (le_foldl_max qs x).1
    · exact (le_foldl_max qs q).2 x hx

theorem pyIndex_lt_length {l : List ℚ} {x : ℚ} (hx : x ∈ l) : pyIndex l x < l.length := by
  induction l with
  | nil => exact absurd hx (List.not_mem_nil x)
  | cons q qs ih =>
    by_cases hq : q = x
    · simp [pyIndex, hq]
    · rcases List.mem_cons.mp hx with rfl | hx
      · exact absurd rfl hq
      · simpa [pyIndex, hq] using ih hx

theorem getD_pyIndex {l : List ℚ} {x : ℚ} (hx : x ∈ l) (d : ℚ) :
    l.getD (pyIndex l x) d = x := by
  induction l with
  | nil => exact absurd hx (List.not_mem_nil x)
  | cons q qs ih =>
    by_cases hq : q = x
    · simp [pyIndex, hq]
    · rcases List.mem_cons.mp hx with rfl | hx
      · exact absurd rfl hq
      · simpa [pyIndex, hq] using ih hx

theorem pyIndex_min {l : List ℚ} {x : ℚ} : ∀ {j : ℕ}, j < pyIndex l x → ∀ d : ℚ,
    l.getD j d ≠ x := by
  induction l with
  | nil => intro j hj; simp [pyIndex] at hj
  | cons q qs ih =>
    intro j hj d
    by_cases hq : q = x
    · simp [pyIndex, hq] at hj
    · cases j with
      | zero => simpa using hq
      | succ j =>
        simp only [pyIndex, if_neg hq] at hj
        simpa using ih (Nat.lt_of_succ_lt_succ hj) d

theorem chordDists_length (e : Engine) (pts : List Point) (first last : ℕ) :
    (chordDists e pts first last).length = last - (first + 1) := by
  simp [chordDists]

theorem chordDists_getD (e : Engine) (pts : List Point) (first last k : ℕ)
    (hk : k < last - (first + 1)) (d : ℚ) :
    (chordDists e pts first last).getD k d =
      e.dist (vertexAt pts first) (vertexAt pts last) (vertexAt pts (first + 1 + k)) := by
  have hlen : k < (chordDists e pts first last).length := by
    rw [chordDists_length]; exact hk
  rw [List.getD_eq_getElem _ _ hlen]
  simp [chordDists]

theorem ffp_bounds (e : Engine) (pts : List Point) {first last : ℕ} (h : first + 1 < last) :
    first < (find_farthest_point e pts first last).1 ∧
      (find_farthest_point e pts first last).1 < last := by
  have h2 : first + 2 ≤ last := h
  have hne : chordDists e pts first last ≠ [] := by
    intro hnil
    have := chordDists_length e pts first last
    rw [hnil] at this
    simp at this
    omega
  have hidx := pyIndex_lt_length (pyMax_mem hne)
  rw [chordDists_length] at hidx
  simp only [find_farthest_point, if_pos h2]
  omega

/-- Embedding of the `while stack:` loop of `Simplify.process_line`: pops a
span, finds the farthest interior point, and either collapses the span
(when the farthest distance is within tolerance and the constraint
validator accepts), splits it at the farthest point, or drops it when it
covers at most two points. `snap` is the `qgs_points` snapshot taken
before the loop; the live geometry, the deleted-vertex counter and the
accumulated feedback notices are threaded through. -/
def process_loop (e : Engine) (tol : ℚ) (snap : List Point) :
    List (ℕ × ℕ) → SimGeom → ℕ → List String → SimGeom × ℕ × List String
  | [], g, deleted, notices => (g, deleted, notices)
  | (first, last) :: rest, g, deleted, notices =>
    if h1 : first + 1 < last then
      if (find_farthest_point e snap first last).2 ≤ tol then
        if (validate_constraints e g first last).1 then
          process_loop e tol snap rest (delete_vertex g (first + 1) (last - 1))
            (deleted + (last - first - 1)) (notices ++ (validate_constraints e g first last).2)
        else
          if (find_farthest_point e snap first last).2 ≤ tol then
            process_loop e tol snap
              (((find_farthest_point e snap first last).1, last) ::
                (first, (find_farthest_point e snap first last).1) :: rest)
              { g with is_simplest := false } deleted
              (notices ++ (validate_constraints e g first last).2)
          else
            process_loop e tol snap rest { g with is_simplest := false } deleted
              (notices ++ (validate_constraints e g first last).2)
      else
        process_loop e tol snap
          (((find_farthest_point e snap first last).1, last) ::
            (first, (find_farthest_point e snap first last).1) :: rest)
          g deleted notices
    else
      process_loop e tol snap rest g deleted notices
termination_by st _ _ _ => stackMeasure st
decreasing_by
  · simp only [stackMeasure, spanCost, List.map_cons, List.sum_cons, List.length_cons]
    omega
  · have hb := ffp_bounds e snap h1
    simp only [stackMeasure, spanCost, List.map_cons, List.sum_cons, List.length_cons]
    omega
  · simp only [stackMeasure, spanCost, List.map_cons, List.sum_cons, List.length_cons]
    omega
  · have hb := ffp_bounds e snap h1
    simp only [stackMeasure, spanCost, List.map_cons, List.sum_cons, List.length_cons]
    omega
  · simp only [stackMeasure, spanCost, List.map_cons, List.sum_cons, List.length_cons]
    omega

/-- The initial work stack of `Simplify.process_line`: the whole-index span
for an open line, the two halves split at the midpoint for a closed line
with at least 5 points, nothing for a smaller closed line. The head of the
list is the top of the stack. -/
def init_stack (pts : List Point) : List (ℕ × ℕ) :=
  if isClosedPts pts then
    if pts.length ≥ 5 then
      [(pts.length / 2, pts.length - 1), (0, pts.length / 2)]
    else
      []
  else
    [(0, pts.length - 1)]

/-- Embedding of `Simplify.process_line`: sets `is_simplest` to true,
seeds the work stack from the snapshot of the vertex sequence, and runs
the divide-and-conquer loop; returns the updated geometry, the number of
vertices deleted, and the diagnostic notices emitted. -/
def process_line (e : Engine) (tol : ℚ) (sim_geom : SimGeom) : SimGeom × ℕ × List String :=
  process_loop e tol sim_geom.points (init_stack sim_geom.points)
    { sim_geom with is_simplest := true } 0 []

/-- One pass of the `for rb_geom in self.rb_geoms` loop inside
`Simplify._simplify_lines`: geometries already marked `is_simplest` are
skipped, the others are run through `process_line`; returns the updated
geometry list (positionally) and the vertices deleted during the pass. -/
def one_pass (e : Engine) (tol : ℚ) : List SimGeom → List SimGeom × ℕ
  | [] => ([], 0)
  | g :: gs =>
    let res := if g.is_simplest then (g, 0) else
      ((process_line e tol g).1, (process_line e tol g).2.1)
    let rest := one_pass e tol gs
    (res.1 :: rest.1, res.2 + rest.2)

/-- Embedding of the `while True:` pass loop of `Simplify._simplify_lines`,
indexed by a fuel bound on the number of passes: runs passes until one
deletes zero vertices, accumulating the pass counter and the
deleted-vertex total; `none` only when the fuel runs out before the fixed
point is reached. -/
def simplify_lines_aux (e : Engine) (tol : ℚ) :
    ℕ → List SimGeom → ℕ → ℕ → Option (List SimGeom × ℕ × ℕ)
  | 0, _, _, _ => none
  | fuel + 1, geoms, passes, total =>
    let pr := one_pass e tol geoms
    if pr.2 = 0 then some (pr.1, passes + 1, total)
    else simplify_lines_aux e tol fuel pr.1 (passes + 1) (total + pr.2)

/-- The statistics record (`RbResults`): feature counts, deleted-vertex
total, pass count, and the debug structural-validity flag, which starts as
Python `None` (here `Option.none`). -/
structure RbResults where
  in_nbr_features : ℕ
  out_nbr_features : ℕ
  nbr_vertice_deleted : ℕ
  nbr_pass : ℕ
  is_structure_valid : Option Bool
deriving DecidableEq

/-- Embedding of the tail of `Simplify.reduce`: runs the pass loop, builds
the statistics record, and then executes the guarded debug integrity check
exactly as the source does — the guard reads
`self.rb_results.is_structure_valid` (still Python `None`, hence falsy)
and the return value of `validate_integrity` is discarded, so the flag is
never updated. The `validate_structure` parameter is carried because the
caller supplies it, and — as in the source — it is read nowhere in this
method. -/
def reduce (e : Engine) (tol : ℚ) (validate_structure : Bool) (geoms : List SimGeom)
    (fuel : ℕ) : Option (List SimGeom × RbResults) :=
  match simplify_lines_aux e tol fuel geoms 0 0 with
  | none => none
  | some (out, passes, total) =>
    let r0 : RbResults :=
      { in_nbr_features := geoms.length
        out_nbr_features := out.length
        nbr_vertice_deleted := total
        nbr_pass := passes
        is_structure_valid := none }
    let r1 := if r0.is_structure_valid.getD false then
        let _ := e.validate_integrity out
        r0
      else r0
    some (out, r1)

/-- Whether some collapse candidate fails constraint validation along the
run of `process_loop` from the given state: the specification predicate
used to characterise the final value of the `is_simplest` flag. -/
def has_fail (e : Engine) (tol : ℚ) (snap : List Point) :
    List (ℕ × ℕ) → SimGeom → Bool
  | [], _ => false
  | (first, last) :: rest, g =>
    if h1 : first + 1 < last then
      if (find_farthest_point e snap first last).2 ≤ tol then
        if (validate_constraints e g first last).1 then
          has_fail e tol snap rest (delete_vertex g (first + 1) (last - 1))
        else true
      else
        has_fail e tol snap
          (((find_farthest_point e snap first last).1, last) ::
            (first, (find_farthest_point e snap first last).1) :: rest) g
    else
      has_fail e tol snap rest g
termination_by st _ => stackMeasure st
decreasing_by
  · simp only [stackMeasure, spanCost, List.map_cons, List.sum_cons, List.length_cons]
    omega
  · have hb := ffp_bounds e snap h1
    simp only [stackMeasure, spanCost, List.map_cons, List.sum_cons, List.length_cons]
    omega
  · simp only [stackMeasure, spanCost, List.map_cons, List.sum_cons, List.length_cons]
    omega

/-- Structural invariant of the work stack (head is the top): each span is
ordered, the top span's last index is below the bound `n` (the live vertex
count), and every deeper span lies entirely at or before the first index
of the span above it. -/
def StackInv : List (ℕ × ℕ) → ℕ → Prop
  | [], _ => True
  | (f, l) :: rest, n => f ≤ l ∧ l < n ∧ StackInv rest (f + 1)

theorem StackInv_mono : ∀ {st : List (ℕ × ℕ)} {n m : ℕ}, StackInv st n → n ≤ m →
    StackInv st m := by
  intro st
  cases st with
  | nil => intro n m _ _; trivial
  | cons s rest =>
    obtain ⟨f, l⟩ := s
    intro n m h hnm
    obtain ⟨h1, h2, h3⟩ := h
    exact ⟨h1, lt_of_lt_of_le h2 hnm, h3⟩

theorem StackInv_spans : ∀ {st : List (ℕ × ℕ)} {n : ℕ}, StackInv st n →
    ∀ s ∈ st, s.1 ≤ s.2 ∧ s.2 < n := by
  intro st
  induction st with
  | nil => intro n _ s hs; exact absurd hs (List.not_mem_nil s)
  | cons t rest ih =>
    obtain ⟨f, l⟩ := t
    intro n h s hs
    obtain ⟨h1, h2, h3⟩ := h
    rcases List.mem_cons.mp hs with rfl | hs
    · exact ⟨h1, h2⟩
    · have hr := ih h3 s hs
      exact ⟨hr.1, lt_of_lt_of_le hr.2 (by omega)⟩

theorem delete_vertex_points_eq (g : SimGeom) {f l : ℕ} (h1 : f + 1 < l) :
    (delete_vertex g (f + 1) (l - 1)).points = g.points.take (f + 1) ++ g.points.drop l := by
  have hl : l - 1 + 1 = l := by omega
  simp [delete_vertex, hl]

theorem deleteSeg_length {p : List Point} {f l : ℕ} (h1 : f + 1 < l) (h2 : l < p.length) :
    (p.take (f + 1) ++ p.drop l).length = p.length - (l - f - 1) := by
  simp [List.length_append, List.length_take, List.length_drop]
  omega

theorem deleteSeg_getD_left {p : List Point} {f l i : ℕ} (h1 : f + 1 < l)
    (h2 : l < p.length) (hi : i < f + 1) (d : Point) :
    (p.take (f + 1) ++ p.drop l).getD i d = p.getD i d := by
  have hlen : i < (p.take (f + 1)).length := by
    simp [List.length_take]; omega
  have hlen2 : i < (p.take (f + 1) ++ p.drop l).length := by
    simp [List.length_append]; omega
  have hip : i < p.length := by omega
  rw [List.getD_eq_getElem _ _ hlen2, List.getD_eq_getElem _ _ hip]
  rw [List.getElem_append_left hlen]
  simp [List.getElem_take]

theorem deleteSeg_getD_right {p : List Point} {f l k : ℕ} (h1 : f + 1 < l)
    (h2 : l < p.length) (hk : k < p.length - l) (d : Point) :
    (p.take (f + 1) ++ p.drop l).getD (f + 1 + k) d = p.getD (l + k) d := by
  have htake : (p.take (f + 1)).length = f + 1 := by
    simp [List.length_take]; omega
  have hlen2 : f + 1 + k < (p.take (f + 1) ++ p.drop l).length := by
    simp [List.length_append, List.length_take, List.length_drop]; omega
  have hlp : l + k < p.length := by omega
  rw [List.getD_eq_getElem _ _ hlen2, List.getD_eq_getElem _ _ hlp]
  rw [List.getElem_append_right (by omega)]
  simp [List.getElem_drop, htake]

theorem deleteSeg_closed {p : List Point} {f l : ℕ} (h1 : f + 1 < l) (h2 : l < p.length) :
    isClosedPts (p.take (f + 1) ++ p.drop l) = isClosedPts p := by
  have hlen : (p.take (f + 1) ++ p.drop l).length = p.length - (l - f - 1) :=
    deleteSeg_length h1 h2
  have h0 : (p.take (f + 1) ++ p.drop l).getD 0 ptZero = p.getD 0 ptZero :=
    deleteSeg_getD_left h1 h2 (by omega) ptZero
  have hr : (p.take (f + 1) ++ p.drop l).getD (f + 1 + (p.length - l - 1)) ptZero
      = p.getD (l + (p.length - l - 1)) ptZero :=
    deleteSeg_getD_right h1 h2 (by omega) ptZero
  have e1 : f + 1 + (p.length - l - 1) = (p.take (f + 1) ++ p.drop l).length - 1 := by
    rw [hlen]; omega
  have e2 : l + (p.length - l - 1) = p.length - 1 := by omega
  rw [e1, e2] at hr
  simp only [isClosedPts, vertexAt]
  congr 1
  · exact decide_eq_decide.mpr (by rw [hlen]; omega)
  · exact decide_eq_decide.mpr (by rw [h0, hr])

theorem validate_guard {e : Engine} {g : SimGeom} {first last : ℕ}
    (hv : (validate_constraints e g first last).1 = true)
    (hc : isClosedPts g.points = true) :
    3 < (g.points.length : ℤ) - ((last : ℤ) - (first : ℤ) - 1) := by
  by_contra hle
  push_neg at hle
  unfold validate_constraints at hv
  rw [if_pos ⟨hc, hle⟩] at hv
  simp at hv

theorem ffp_pos (e : Engine) (snap : List Point) (hd : ∀ a b p, 0 < e.dist a b p)
    {first last : ℕ} (h : first + 1 < last) :
    0 < (find_farthest_point e snap first last).2 := by
  have h2 : first + 2 ≤ last := h
  have hne : chordDists e snap first last ≠ [] := by
    intro hnil
    have hl := chordDists_length e snap first last
    rw [hnil] at hl
    simp at hl
    omega
  have hmem := pyMax_mem hne
  simp only [chordDists, List.mem_map, List.mem_range] at hmem
  obtain ⟨k, _, heq⟩ := hmem
  simp only [find_farthest_point, if_pos h2, chordDists]
  rw [← heq]
  exact hd _ _ _

theorem process_loop_size (e : Engine) (tol : ℚ) (snap : List Point) :
    ∀ st g (d : ℕ) ns, StackInv st g.points.length →
      (process_loop e tol snap st g d ns).1.points.length
        + (process_loop e tol snap st g d ns).2.1 = g.points.length + d := by
  intro st g d ns
  induction st, g, d, ns using process_loop.induct e tol snap with
  | case1 g d ns => intro _; simp [process_loop]
  | case2 first last rest g d ns h1 hfd hv ih =>
    intro hinv
    obtain ⟨hfl, hln, hrest⟩ := hinv
    have hpts := delete_vertex_points_eq g h1
    have hlen : (delete_vertex g (first + 1) (last - 1)).points.length
        = g.points.length - (last - first - 1) := by
      rw [hpts]; exact deleteSeg_length h1 hln
    have hinv' : StackInv rest (delete_vertex g (first + 1) (last - 1)).points.length := by
      apply StackInv_mono hrest
      omega
    have hrec := ih hinv'
    rw [process_loop]
    simp only [dif_pos h1, if_pos hfd, if_pos hv]
    omega
  | case3 first last rest g d ns h1 hfd hv hfd2 ih =>
    intro hinv
    obtain ⟨hfl, hln, hrest⟩ := hinv
    have hb := ffp_bounds e snap h1
    have hinv' : StackInv (((find_farthest_point e snap first last).1, last) ::
        (first, (find_farthest_point e snap first last).1) :: rest)
        ({ id := g.id, points := g.points, is_simplest := false } : SimGeom).points.length := by
      show StackInv _ g.points.length
      exact ⟨by omega, by omega, by omega, by omega, hrest⟩
    have hrec := ih hinv'
    have hgl : ({ id := g.id, points := g.points, is_simplest := false } : SimGeom).points.length
        = g.points.length := rfl
    rw [hgl] at hrec
    rw [process_loop]
    simp only [dif_pos h1, if_pos hfd, if_neg hv, if_pos hfd2]
    omega
  | case4 first last rest g d ns h1 hfd hv hfd2 ih =>
    exact absurd hfd hfd2
  | case5 first last rest g d ns h1 hfd ih =>
    intro hinv
    obtain ⟨hfl, hln, hrest⟩ := hinv
    have hb := ffp_bounds e snap h1
    have hinv' : StackInv (((find_farthest_point e snap first last).1, last) ::
        (first, (find_farthest_point e snap first last).1) :: rest) g.points.length := by
      exact ⟨by omega, by omega, by omega, by omega, hrest⟩
    have hrec := ih hinv'
    rw [process_loop]
    simp only [dif_pos h1, if_neg hfd]
    omega
  | case6 first last rest g d ns h1 ih =>
    intro hinv
    obtain ⟨hfl, hln, hrest⟩ := hinv
    have hinv' : StackInv rest g.points.length := StackInv_mono hrest (by omega)
    have hrec := ih hinv'
    rw [process_loop]
    simp only [dif_neg h1]
    omega

theorem process_loop_ring (e : Engine) (tol : ℚ) (snap : List Point) :
    ∀ st g (d : ℕ) ns, StackInv st g.points.length →
      isClosedPts (process_loop e tol snap st g d ns).1.points = isClosedPts g.points ∧
        (isClosedPts g.points = true → 4 ≤ g.points.length →
          4 ≤ (process_loop e tol snap st g d ns).1.points.length) := by
  intro st g d ns
  induction st, g, d, ns using process_loop.induct e tol snap with
  | case1 g d ns =>
    intro _
    simp [process_loop]
  | case2 first last rest g d ns h1 hfd hv ih =>
    intro hinv
    obtain ⟨hfl, hln, hrest⟩ := hinv
    have hpts := delete_vertex_points_eq g h1
    have hlen : (delete_vertex g (first + 1) (last - 1)).points.length
        = g.points.length - (last - first - 1) := by
      rw [hpts]; exact deleteSeg_length h1 hln
    have hclosed : isClosedPts (delete_vertex g (first + 1) (last - 1)).points
        = isClosedPts g.points := by
      rw [hpts]; exact deleteSeg_closed h1 hln
    have hinv' : StackInv rest (delete_vertex g (first + 1) (last - 1)).points.length := by
      apply StackInv_mono hrest
      omega
    have hrec := ih hinv'
    rw [process_loop]
    simp only [dif_pos h1, if_pos hfd, if_pos hv]
    constructor
    · rw [hrec.1, hclosed]
    · intro hc h4
      have hguard := validate_guard hv hc
      have h4' : 4 ≤ (delete_vertex g (first + 1) (last - 1)).points.length := by omega
      exact hrec.2 (by rw [hclosed]; exact hc) h4'
  | case3 first last rest g d ns h1 hfd hv hfd2 ih =>
    intro hinv
    obtain ⟨hfl, hln, hrest⟩ := hinv
    have hb := ffp_bounds e snap h1
    have hinv' : StackInv (((find_farthest_point e snap first last).1, last) ::
        (first, (find_farthest_point e snap first last).1) :: rest)
        ({ id := g.id, points := g.points, is_simplest := false } : SimGeom).points.length := by
      show StackInv _ g.points.length
      exact ⟨by omega, by omega, by omega, by omega, hrest⟩
    have hrec := ih hinv'
    rw [process_loop]
    simp only [dif_pos h1, if_pos hfd, if_neg hv, if_pos hfd2]
    exact hrec
  | case4 first last rest g d ns h1 hfd hv hfd2 ih =>
    exact absurd hfd hfd2
  | case5 first last rest g d ns h1 hfd ih =>
    intro hinv
    obtain ⟨hfl, hln, hrest⟩ := hinv
    have hb := ffp_bounds e snap h1
    have hinv' : StackInv (((find_farthest_point e snap first last).1, last) ::
        (first, (find_farthest_point e snap first last).1) :: rest) g.points.length := by
      exact ⟨by omega, by omega, by omega, by omega, hrest⟩
    have hrec := ih hinv'
    rw [process_loop]
    simp only [dif_pos h1, if_neg hfd]
    exact hrec
  | case6 first last rest g d ns h1 ih =>
    intro hinv
    obtain ⟨hfl, hln, hrest⟩ := hinv
    have hrec := ih (StackInv_mono hrest (by omega))
    rw [process_loop]
    simp only [dif_neg h1]
    exact hrec

theorem process_loop_simplest_mono (e : Engine) (tol : ℚ) (snap : List Point) :
    ∀ st g (d : ℕ) ns,
      (process_loop e tol snap st g d ns).1.is_simplest = true → g.is_simplest = true := by
  intro st g d ns
  induction st, g, d, ns using process_loop.induct e tol snap with
  | case1 g d ns => simp [process_loop]
  | case2 first last rest g d ns h1 hfd hv ih =>
    intro h
    rw [process_loop] at h
    simp only [dif_pos h1, if_pos hfd, if_pos hv] at h
    exact ih h
  | case3 first last rest g d ns h1 hfd hv hfd2 ih =>
    intro h
    rw [process_loop] at h
    simp only [dif_pos h1, if_pos hfd, if_neg hv, if_pos hfd2] at h
    have hfalse := ih h
    exact absurd hfalse (by simp)
  | case4 first last rest g d ns h1 hfd hv hfd2 ih =>
    exact absurd hfd hfd2
  | case5 first last rest g d ns h1 hfd ih =>
    intro h
    rw [process_loop] at h
    simp only [dif_pos h1, if_neg hfd] at h
    exact ih h
  | case6 first last rest g d ns h1 ih =>
    intro h
    rw [process_loop] at h
    simp only [dif_neg h1] at h
    exact ih h

theorem process_loop_has_fail (e : Engine) (tol : ℚ) (snap : List Point) :
    ∀ st g (d : ℕ) ns,
      (process_loop e tol snap st g d ns).1.is_simplest
        = (g.is_simplest && !has_fail e tol snap st g) := by
  intro st g d ns
  induction st, g, d, ns using process_loop.induct e tol snap with
  | case1 g d ns => simp [process_loop, has_fail]
  | case2 first last rest g d ns h1 hfd hv ih =>
    have hhf : has_fail e tol snap ((first, last) :: rest) g
        = has_fail e tol snap rest (delete_vertex g (first + 1) (last - 1)) := by
      rw [has_fail]
      simp only [dif_pos h1, if_pos hfd, if_pos hv]
    rw [process_loop]
    simp only [dif_pos h1, if_pos hfd, if_pos hv]
    rw [ih, hhf]
    rfl
  | case3 first last rest g d ns h1 hfd hv hfd2 ih =>
    have hhf : has_fail e tol snap ((first, last) :: rest) g = true := by
      rw [has_fail]
      simp only [dif_pos h1, if_pos hfd, if_neg hv]
    rw [process_loop]
    simp only [dif_pos h1, if_pos hfd, if_neg hv, if_pos hfd2]
    rw [ih, hhf]
    simp
  | case4 first last rest g d ns h1 hfd hv hfd2 ih =>
    exact absurd hfd hfd2
  | case5 first last rest g d ns h1 hfd ih =>
    have hhf : has_fail e tol snap ((first, last) :: rest) g
        = has_fail e tol snap (((find_farthest_point e snap first last).1, last) ::
            (first, (find_farthest_point e snap first last).1) :: rest) g := by
      rw [has_fail]
      simp only [dif_pos h1, if_neg hfd]
    rw [process_loop]
    simp only [dif_pos h1, if_neg hfd]
    rw [ih, hhf]
  | case6 first last rest g d ns h1 ih =>
    have hhf : has_fail e tol snap ((first, last) :: rest) g
        = has_fail e tol snap rest g := by
      rw [has_fail]
      simp only [dif_neg h1]
    rw [process_loop]
    simp only [dif_neg h1]
    rw [ih, hhf]

theorem process_loop_posdist (e : Engine) (tol : ℚ) (snap : List Point)
    (hd : ∀ a b p, 0 < e.dist a b p) (htol : tol ≤ 0) :
    ∀ st g (d : ℕ) ns, process_loop e tol snap st g d ns = (g, d, ns) := by
  intro st g d ns
  induction st, g, d, ns using process_loop.induct e tol snap with
  | case1 g d ns => simp [process_loop]
  | case2 first last rest g d ns h1 hfd hv ih =>
    have := ffp_pos e snap hd h1
    exact absurd hfd (by push_neg; linarith)
  | case3 first last rest g d ns h1 hfd hv hfd2 ih =>
    have := ffp_pos e snap hd h1
    exact absurd hfd (by push_neg; linarith)
  | case4 first last rest g d ns h1 hfd hv hfd2 ih =>
    exact absurd hfd hfd2
  | case5 first last rest g d ns h1 hfd ih =>
    rw [process_loop]
    simp only [dif_pos h1, if_neg hfd]
    exact ih
  | case6 first last rest g d ns h1 ih =>
    rw [process_loop]
    simp only [dif_neg h1]
    exact ih

theorem init_StackInv {pts : List Point} (h : pts ≠ []) :
    StackInv (init_stack pts) pts.length := by
  have hlen : 1 ≤ pts.length := by
    cases pts with
    | nil => exact absurd rfl h
    | cons a as => simp
  unfold init_stack
  by_cases hc : isClosedPts pts
  · rw [if_pos hc]
    by_cases h5 : pts.length ≥ 5
    · rw [if_pos h5]
      refine ⟨by omega, by omega, by omega, by omega, trivial⟩
    · rw [if_neg h5]; trivial
  · rw [if_neg hc]
    exact ⟨by omega, by omega, trivial⟩

theorem process_loop_zero_span (e : Engine) (tol : ℚ) (snap : List Point) (g : SimGeom)
    (d : ℕ) (ns : List String) :
    process_loop e tol snap [(0, 0)] g d ns = (g, d, ns) := by
  rw [process_loop]
  rw [dif_neg (by omega : ¬(0 + 1 < 0))]
  rw [process_loop]

theorem init_stack_nil : init_stack [] = [(0, 0)] := by
  simp [init_stack, isClosedPts, vertexAt]

theorem process_line_size (e : Engine) (tol : ℚ) (g : SimGeom) :
    (process_line e tol g).1.points.length + (process_line e tol g).2.1
      = g.points.length := by
  by_cases hnil : g.points = []
  · rw [process_line, hnil, init_stack_nil, process_loop_zero_span]
    simp [hnil]
  · have hinv : StackInv (init_stack g.points) g.points.length := init_StackInv hnil
    have hres := process_loop_size e tol g.points (init_stack g.points)
      { g with is_simplest := true } 0 [] hinv
    simpa [process_line] using hres

theorem process_line_ring (e : Engine) (tol : ℚ) (g : SimGeom) :
    isClosedPts (process_line e tol g).1.points = isClosedPts g.points ∧
      (isClosedPts g.points = true → 4 ≤ g.points.length →
        4 ≤ (process_line e tol g).1.points.length) := by
  by_cases hnil : g.points = []
  · rw [process_line, hnil, init_stack_nil, process_loop_zero_span]
    constructor
    · rfl
    · intro _ h4
      simp at h4
  · have hinv : StackInv (init_stack g.points) g.points.length := init_StackInv hnil
    have hres := process_loop_ring e tol g.points (init_stack g.points)
      { g with is_simplest := true } 0 [] hinv
    simpa [process_line] using hres

theorem process_line_simplest (e : Engine) (tol : ℚ) (g : SimGeom) :
    (process_line e tol g).1.is_simplest
      = !has_fail e tol g.points (init_stack g.points) { g with is_simplest := true } := by
  have hres := process_loop_has_fail e tol g.points (init_stack g.points)
    { g with is_simplest := true } 0 []
  simpa [process_line] using hres

theorem process_line_posdist (e : Engine) (tol : ℚ) (hd : ∀ a b p, 0 < e.dist a b p)
    (htol : tol ≤ 0) (g : SimGeom) :
    process_line e tol g = ({ g with is_simplest := true }, 0, []) := by
  rw [process_line]
  exact process_loop_posdist e tol g.points hd htol _ _ _ _

/-- Total vertex count of a geometry list. -/
def totalVtx (gs : List SimGeom) : ℕ := (gs.map (fun g => g.points.length)).sum

theorem one_pass_length (e : Engine) (tol : ℚ) :
    ∀ gs : List SimGeom, (one_pass e tol gs).1.length = gs.length := by
  intro gs
  induction gs with
  | nil => simp [one_pass]
  | cons g rest ih => simp [one_pass, ih]

theorem one_pass_size (e : Engine) (tol : ℚ) :
    ∀ gs : List SimGeom, totalVtx (one_pass e tol gs).1 + (one_pass e tol gs).2
      = totalVtx gs := by
  intro gs
  induction gs with
  | nil => simp [one_pass, totalVtx]
  | cons g rest ih =>
    by_cases hs : g.is_simplest
    · simp only [one_pass, if_pos hs, totalVtx, List.map_cons, List.sum_cons]
      simp only [totalVtx] at ih
      omega
    · have hpl := process_line_size e tol g
      simp only [one_pass, if_neg hs, totalVtx, List.map_cons, List.sum_cons]
      simp only [totalVtx] at ih
      omega

theorem one_pass_mono (e : Engine) (tol : ℚ) :
    ∀ (gs : List SimGeom) (i : ℕ),
      ((one_pass e tol gs).1.getD i default).points.length
        ≤ (gs.getD i default).points.length := by
  intro gs
  induction gs with
  | nil => intro i; simp [one_pass]
  | cons g rest ih =>
    intro i
    cases i with
    | zero =>
      by_cases hs : g.is_simplest
      · simp [one_pass, if_pos hs]
      · have hpl := process_line_size e tol g
        simp only [one_pass, if_neg hs]
        simp only [List.getD_cons_zero]
        omega
    | succ i =>
      simpa [one_pass] using ih i

theorem one_pass_ring (e : Engine) (tol : ℚ) :
    ∀ gs : List SimGeom,
      (∀ g ∈ gs, isClosedPts g.points = true → 4 ≤ g.points.length) →
      ∀ g' ∈ (one_pass e tol gs).1, isClosedPts g'.points = true → 4 ≤ g'.points.length := by
  intro gs
  induction gs with
  | nil => intro _ g' hg'; simp [one_pass] at hg'
  | cons g rest ih =>
    intro hall g' hg'
    have hhd := hall g (List.mem_cons_self g rest)
    have htl := fun x hx => hall x (List.mem_cons_of_mem g hx)
    by_cases hs : g.is_simplest
    · simp only [one_pass, if_pos hs] at hg'
      rcases List.mem_cons.mp hg' with rfl | hg'
      · exact hhd
      · exact ih htl g' hg'
    · simp only [one_pass, if_neg hs] at hg'
      rcases List.mem_cons.mp hg' with rfl | hg'
      · have hr := process_line_ring e tol g
        intro hc
        rw [hr.1] at hc
        exact hr.2 hc (hhd hc)
      · exact ih htl g' hg'

theorem one_pass_skip (e : Engine) (tol : ℚ) :
    ∀ (gs : List SimGeom) (i : ℕ), (gs.getD i default).is_simplest = true →
      (one_pass e tol gs).1.getD i default = gs.getD i default := by
  intro gs
  induction gs with
  | nil => intro i _; simp [one_pass]
  | cons g rest ih =>
    intro i
    cases i with
    | zero =>
      intro hs
      simp only [List.getD_cons_zero] at hs
      simp [one_pass, if_pos hs]
    | succ i =>
      intro hs
      simp only [List.getD_cons_succ] at hs
      simpa [one_pass] using ih i hs

theorem one_pass_posdist (e : Engine) (tol : ℚ) (hd : ∀ a b p, 0 < e.dist a b p)
    (htol : tol ≤ 0) :
    ∀ gs : List SimGeom, (one_pass e tol gs).2 = 0 ∧
      ∀ i : ℕ, ((one_pass e tol gs).1.getD i default).points
        = (gs.getD i default).points := by
  intro gs
  induction gs with
  | nil => exact ⟨rfl, by intro i; simp [one_pass]⟩
  | cons g rest ih =>
    by_cases hs : g.is_simplest
    · refine ⟨?_, ?_⟩
      · simp [one_pass, if_pos hs, ih.1]
      · intro i
        cases i with
        | zero => simp [one_pass, if_pos hs]
        | succ i => simpa [one_pass] using ih.2 i
    · have hpl := process_line_posdist e tol hd htol g
      refine ⟨?_, ?_⟩
      · simp [one_pass, if_neg hs, hpl, ih.1]
      · intro i
        cases i with
        | zero => simp [one_pass, if_neg hs, hpl]
        | succ i => simpa [one_pass] using ih.2 i

theorem simplify_aux_term (e : Engine) (tol : ℚ) :
    ∀ (fuel : ℕ) (gs : List SimGeom) (p t : ℕ), totalVtx gs < fuel →
      (simplify_lines_aux e tol fuel gs p t).isSome := by
  intro fuel
  induction fuel with
  | zero => intro gs p t h; omega
  | succ fuel ih =>
    intro gs p t h
    rw [simplify_lines_aux]
    by_cases hz : (one_pass e tol gs).2 = 0
    · simp [hz]
    · simp only [if_neg hz]
      apply ih
      have hsz := one_pass_size e tol gs
      omega

theorem simplify_aux_size (e : Engine) (tol : ℚ) :
    ∀ (fuel : ℕ) (gs : List SimGeom) (p t : ℕ) (out : List SimGeom × ℕ × ℕ),
      simplify_lines_aux e tol fuel gs p t = some out →
      totalVtx out.1 + out.2.2 = totalVtx gs + t := by
  intro fuel
  induction fuel with
  | zero => intro gs p t out h; simp [simplify_lines_aux] at h
  | succ fuel ih =>
    intro gs p t out h
    rw [simplify_lines_aux] at h
    have hsz := one_pass_size e tol gs
    by_cases hz : (one_pass e tol gs).2 = 0
    · rw [if_pos hz] at h
      have hout : ((one_pass e tol gs).1, p + 1, t) = out := Option.some.inj h
      rw [← hout]
      simp only []
      omega
    · rw [if_neg hz] at h
      have hrec := ih _ _ _ _ h
      omega

theorem simplify_aux_length (e : Engine) (tol : ℚ) :
    ∀ (fuel : ℕ) (gs : List SimGeom) (p t : ℕ) (out : List SimGeom × ℕ × ℕ),
      simplify_lines_aux e tol fuel gs p t = some out → out.1.length = gs.length := by
  intro fuel
  induction fuel with
  | zero => intro gs p t out h; simp [simplify_lines_aux] at h
  | succ fuel ih =>
    intro gs p t out h
    rw [simplify_lines_aux] at h
    by_cases hz : (one_pass e tol gs).2 = 0
    · rw [if_pos hz] at h
      have hout : ((one_pass e tol gs).1, p + 1, t) = out := Option.some.inj h
      rw [← hout]
      exact one_pass_length e tol gs
    · rw [if_neg hz] at h
      have hrec := ih _ _ _ _ h
      rw [hrec, one_pass_length]

theorem simplify_aux_mono (e : Engine) (tol : ℚ) :
    ∀ (fuel : ℕ) (gs : List SimGeom) (p t : ℕ) (out : List SimGeom × ℕ × ℕ),
      simplify_lines_aux e tol fuel gs p t = some out → ∀ i : ℕ,
      (out.1.getD i default).points.length ≤ ((gs.getD i default)).points.length := by
  intro fuel
  induction fuel with
  | zero => intro gs p t out h; simp [simplify_lines_aux] at h
  | succ fuel ih =>
    intro gs p t out h i
    rw [simplify_lines_aux] at h
    by_cases hz : (one_pass e tol gs).2 = 0
    · rw [if_pos hz] at h
      have hout : ((one_pass e tol gs).1, p + 1, t) = out := Option.some.inj h
      rw [← hout]
      exact one_pass_mono e tol gs i
    · rw [if_neg hz] at h
      exact le_trans (ih _ _ _ _ h i) (one_pass_mono e tol gs i)

theorem simplify_aux_ring (e : Engine) (tol : ℚ) :
    ∀ (fuel : ℕ) (gs : List SimGeom) (p t : ℕ) (out : List SimGeom × ℕ × ℕ),
      simplify_lines_aux e tol fuel gs p t = some out →
      (∀ g ∈ gs, isClosedPts g.points = true → 4 ≤ g.points.length) →
      ∀ g' ∈ out.1, isClosedPts g'.points = true → 4 ≤ g'.points.length := by
  intro fuel
  induction fuel with
  | zero => intro gs p t out h; simp [simplify_lines_aux] at h
  | succ fuel ih =>
    intro gs p t out h hall
    rw [simplify_lines_aux] at h
    by_cases hz : (one_pass e tol gs).2 = 0
    · rw [if_pos hz] at h
      have hout : ((one_pass e tol gs).1, p + 1, t) = out := Option.some.inj h
      rw [← hout]
      exact one_pass_ring e tol gs hall
    · rw [if_neg hz] at h
      exact ih _ _ _ _ h (one_pass_ring e tol gs hall)

theorem simplify_aux_skip (e : Engine) (tol : ℚ) :
    ∀ (fuel : ℕ) (gs : List SimGeom) (p t : ℕ) (out : List SimGeom × ℕ × ℕ),
      simplify_lines_aux e tol fuel gs p t = some out → ∀ i : ℕ,
      (gs.getD i default).is_simplest = true →
      out.1.getD i default = gs.getD i default := by
  intro fuel
  induction fuel with
  | zero => intro gs p t out h; simp [simplify_lines_aux] at h
  | succ fuel ih =>
    intro gs p t out h i hs
    rw [simplify_lines_aux] at h
    by_cases hz : (one_pass e tol gs).2 = 0
    · rw [if_pos hz] at h
      have hout : ((one_pass e tol gs).1, p + 1, t) = out := Option.some.inj h
      rw [← hout]
      exact one_pass_skip e tol gs i hs
    · rw [if_neg hz] at h
      have hstep := one_pass_skip e tol gs i hs
      have hs' : ((one_pass e tol gs).1.getD i default).is_simplest = true := by
        rw [hstep]; exact hs
      rw [ih _ _ _ _ h i hs', hstep]

theorem simplify_aux_posdist (e : Engine) (tol : ℚ) (hd : ∀ a b p, 0 < e.dist a b p)
    (htol : tol ≤ 0) (fuel : ℕ) (gs : List SimGeom) (p t : ℕ) :
    simplify_lines_aux e tol (fuel + 1) gs p t = some ((one_pass e tol gs).1, p + 1, t) ∧
      ∀ i : ℕ, ((one_pass e tol gs).1.getD i default).points
        = (gs.getD i default).points := by
  have hp := one_pass_posdist e tol hd htol gs
  constructor
  · rw [simplify_lines_aux]
    simp [hp.1]
  · exact hp.2

theorem process_loop_collapse (e : Engine) (tol : ℚ) (snap : List Point)
    {first last : ℕ} (rest : List (ℕ × ℕ)) (g : SimGeom) (d : ℕ) (ns : List String)
    (h1 : first + 1 < last)
    (hfd : (find_farthest_point e snap first last).2 ≤ tol)
    (hv : (validate_constraints e g first last).1 = true) :
    process_loop e tol snap ((first, last) :: rest) g d ns
      = process_loop e tol snap rest (delete_vertex g (first + 1) (last - 1))
          (d + (last - first - 1)) (ns ++ (validate_constraints e g first last).2) := by
  rw [process_loop]
  rw [dif_pos h1, if_pos hfd, if_pos hv]

theorem process_loop_split (e : Engine) (tol : ℚ) (snap : List Point)
    {first last : ℕ} (rest : List (ℕ × ℕ)) (g : SimGeom) (d : ℕ) (ns : List String)
    (h1 : first + 1 < last)
    (hfd : tol < (find_farthest_point e snap first last).2) :
    process_loop e tol snap ((first, last) :: rest) g d ns
      = process_loop e tol snap
          (((find_farthest_point e snap first last).1, last) ::
            (first, (find_farthest_point e snap first last).1) :: rest) g d ns := by
  rw [process_loop]
  rw [dif_pos h1, if_neg (not_le.mpr hfd)]

theorem ffp_spec (e : Engine) (pts : List Point) {first last : ℕ} (h : first + 1 < last) :
    first < (find_farthest_point e pts first last).1 ∧
    (find_farthest_point e pts first last).1 < last ∧
    (find_farthest_point e pts first last).2
      = e.dist (vertexAt pts first) (vertexAt pts last)
          (vertexAt pts (find_farthest_point e pts first last).1) ∧
    (∀ i : ℕ, first < i → i < last →
      e.dist (vertexAt pts first) (vertexAt pts last) (vertexAt pts i)
        ≤ (find_farthest_point e pts first last).2) ∧
    (∀ i : ℕ, first < i → i < (find_farthest_point e pts first last).1 →
      e.dist (vertexAt pts first) (vertexAt pts last) (vertexAt pts i)
        < (find_farthest_point e pts first last).2) := by
  have h2 : first + 2 ≤ last := h
  have hlen := chordDists_length e pts first last
  have hne : chordDists e pts first last ≠ [] := by
    intro hnil; rw [hnil] at hlen; simp at hlen; omega
  have hmem := pyMax_mem hne
  have hidx := pyIndex_lt_length hmem
  rw [hlen] at hidx
  have hval : e.dist (vertexAt pts first) (vertexAt pts last)
      (vertexAt pts
        (pyIndex (chordDists e pts first last) (pyMax (chordDists e pts first last))
          + first + 1))
      = pyMax (chordDists e pts first last) := by
    have hg := getD_pyIndex hmem 0
    have hcd := chordDists_getD e pts first last
      (pyIndex (chordDists e pts first last) (pyMax (chordDists e pts first last)))
      (by omega) 0
    rw [hg] at hcd
    have hieq : first + 1
        + pyIndex (chordDists e pts first last) (pyMax (chordDists e pts first last))
        = pyIndex (chordDists e pts first last) (pyMax (chordDists e pts first last))
          + first + 1 := by omega
    rw [hieq] at hcd
    exact hcd.symm
  have hub : ∀ i : ℕ, first < i → i < last →
      e.dist (vertexAt pts first) (vertexAt pts last) (vertexAt pts i)
        ≤ pyMax (chordDists e pts first last) := by
    intro i hi1 hi2
    have hk : i - (first + 1) < last - (first + 1) := by omega
    have hcd := chordDists_getD e pts first last (i - (first + 1)) hk 0
    have hieq : first + 1 + (i - (first + 1)) = i := by omega
    rw [hieq] at hcd
    have hmm : (chordDists e pts first last).getD (i - (first + 1)) 0
        ∈ chordDists e pts first last := by
      rw [List.getD_eq_getElem _ _ (by rw [hlen]; omega)]
      exact List.getElem_mem _
    rw [hcd] at hmm
    exact le_pyMax hmm
  have hlt : ∀ i : ℕ, first < i →
      i < pyIndex (chordDists e pts first last) (pyMax (chordDists e pts first last))
        + first + 1 →
      e.dist (vertexAt pts first) (vertexAt pts last) (vertexAt pts i)
        < pyMax (chordDists e pts first last) := by
    intro i hi1 hi3
    have hk : i - (first + 1)
        < pyIndex (chordDists e pts first last) (pyMax (chordDists e pts first last)) := by
      omega
    have hneq := pyIndex_min hk 0
    have hcd := chordDists_getD e pts first last (i - (first + 1)) (by omega) 0
    have hieq : first + 1 + (i - (first + 1)) = i := by omega
    rw [hieq] at hcd
    rw [hcd] at hneq
    exact lt_of_le_of_ne (hub i hi1 (by omega)) hneq
  simp only [find_farthest_point, if_pos h2]
  exact ⟨by omega, by omega, hval.symm, hub, hlt⟩

/-- Agreement of the live vertex sequence with the snapshot at every index
covered by some span still on the work stack. -/
def AgreeBelow (snap live : List Point) (st : List (ℕ × ℕ)) : Prop :=
  ∀ s ∈ st, ∀ i ≤ s.2, live.getD i ptZero = snap.getD i ptZero

/-- Concrete engine instance whose oracles all accept, with constant unit
distances, chord length 2 and relative-zero tolerance 1; used to exercise
the engine on concrete inputs. -/
def accEngine : Engine where
  dist := fun _ _ _ => 1
  seg_length := fun _ _ => 2
  zero_relative := 1
  get_segment_intersect := fun _ _ => ([], [])
  validate_simplicity := fun _ _ _ => true
  validate_intersection := fun _ _ _ => true
  unary_union := fun l => l
  polygonize := fun l => l
  is_simple := fun _ => true
  validate_sidedness := fun _ _ => true
  validate_integrity := fun _ => true

/-- Concrete engine instance agreeing with the Euclidean geometry engine on
every query issued for a horizontal collinear line: the distance of a point
from a horizontal chord through it is 0 exactly when the point shares the
chord's y-coordinate. -/
def colEngine : Engine :=
  { accEngine with dist := fun a b p => if a.2 = b.2 ∧ p.2 = a.2 then 0 else 1 }

/-- A 3-point open line with collinear vertices (0,0), (1,0), (2,0). -/
def gLine3 : SimGeom :=
  ⟨1, [((0 : ℚ), (0 : ℚ)), ((1 : ℚ), (0 : ℚ)), ((2 : ℚ), (0 : ℚ))], false⟩

/-- The geometry `gLine3` after the collinear interior vertex is deleted. -/
def gLine3' : SimGeom := ⟨1, [((0 : ℚ), (0 : ℚ)), ((2 : ℚ), (0 : ℚ))], true⟩

/-- A closed 5-point unit-square ring (first vertex repeated at the end). -/
def gRing5 : SimGeom :=
  ⟨2, [((0 : ℚ), (0 : ℚ)), ((1 : ℚ), (0 : ℚ)), ((1 : ℚ), (1 : ℚ)),
       ((0 : ℚ), (1 : ℚ)), ((0 : ℚ), (0 : ℚ))], false⟩

theorem gLine3_eval : process_line colEngine 0 gLine3 = (gLine3', 1, []) := by
  have hstk : init_stack gLine3.points = [(0, 2)] := by decide
  have h1 : (0 : ℕ) + 1 < 2 := by omega
  have hfd : (find_farthest_point colEngine gLine3.points 0 2).2 ≤ 0 := by decide
  have hv : (validate_constraints colEngine { gLine3 with is_simplest := true } 0 2).1
      = true := by decide
  rw [process_line, hstk,
    process_loop_collapse colEngine 0 gLine3.points [] _ 0 [] h1 hfd hv]
  rw [process_loop]
  decide

theorem one_pass_gLine3 : one_pass colEngine 0 [gLine3] = ([gLine3'], 1) := by
  have hs : ¬gLine3.is_simplest = true := by decide
  simp only [one_pass, if_neg hs, gLine3_eval]

theorem one_pass_gLine3' : one_pass colEngine 0 [gLine3'] = ([gLine3'], 0) := by
  have hs : gLine3'.is_simplest = true := by decide
  simp only [one_pass, if_pos hs]

/-- C1: `validate_constraints` runs its checks in the fixed order degeneracy
guard, simplicity, cross-feature intersection, sidedness, short-circuiting
on the first failing check; the cross-feature intersection and sidedness
checks apply only when segments of other geometries were returned for the
subline's bounding-box query; the result is true exactly when every
applicable check passes — in particular, whenever the sidedness stage is
reached with a polygonization that is not a simple polygon the result is
false — and the degeneracy guard returns false immediately. -/
theorem C1_validator_order (e : Engine) (g : SimGeom) (first last : ℕ) :
    ((validate_constraints e g first last).1 = true ↔
      (¬(isClosedPts g.points = true ∧
          (g.points.length : ℤ) - ((last : ℤ) - (first : ℤ) - 1) ≤ 3) ∧
        (e.zero_relative ≤
            e.seg_length ((subline_points g.points first last).headD ptZero)
              ((subline_points g.points first last).getLastD ptZero) →
          e.validate_simplicity
              (e.get_segment_intersect g.id (subline_points g.points first last)).1
              ((subline_points g.points first last).headD ptZero)
              ((subline_points g.points first last).getLastD ptZero) = true) ∧
        ((e.get_segment_intersect g.id (subline_points g.points first last)).2 ≠ [] →
          e.validate_intersection
              (e.get_segment_intersect g.id (subline_points g.points first last)).2
              ((subline_points g.points first last).headD ptZero)
              ((subline_points g.points first last).getLastD ptZero) = true ∧
            e.is_simple
              (e.polygonize (e.unary_union (subline_points g.points first last ++
                [(subline_points g.points first last).headD ptZero]))) = true ∧
            e.validate_sidedness
              (e.get_segment_intersect g.id (subline_points g.points first last)).2
              (e.polygonize (e.unary_union (subline_points g.points first last ++
                [(subline_points g.points first last).headD ptZero]))) = true))) ∧
    ((isClosedPts g.points = true ∧
        (g.points.length : ℤ) - ((last : ℤ) - (first : ℤ) - 1) ≤ 3) →
      validate_constraints e g first last = (false, [])) := by
  constructor
  · by_cases hg : isClosedPts g.points = true ∧
        (g.points.length : ℤ) - ((last : ℤ) - (first : ℤ) - 1) ≤ 3
    · unfold validate_constraints
      rw [if_pos hg]
      simp [hg]
    · unfold validate_constraints
      rw [if_neg hg]
      simp only [eq_true hg, true_and]
      by_cases ho : (e.get_segment_intersect g.id (subline_points g.points first last)).2 = []
      · by_cases hz : e.zero_relative ≤
            e.seg_length ((subline_points g.points first last).headD ptZero)
              ((subline_points g.points first last).getLastD ptZero)
        · simp [-List.headD_eq_head?_getD, -List.getLastD_eq_getLast?, hg, ho, hz]
        · simp [-List.headD_eq_head?_getD, -List.getLastD_eq_getLast?, hg, ho, hz]
      · have hlen : (e.get_segment_intersect g.id (subline_points g.points first last)).2.length
            ≥ 1 := by
          have := List.length_pos.mpr ho
          omega
        by_cases hz : e.zero_relative ≤
            e.seg_length ((subline_points g.points first last).headD ptZero)
              ((subline_points g.points first last).getLastD ptZero)
        · cases hsim : e.validate_simplicity
              (e.get_segment_intersect g.id (subline_points g.points first last)).1
              ((subline_points g.points first last).headD ptZero)
              ((subline_points g.points first last).getLastD ptZero) with
          | false => simp [-List.headD_eq_head?_getD, -List.getLastD_eq_getLast?, hg, ho, hz, hlen, hsim]
          | true =>
            cases hint : e.validate_intersection
                (e.get_segment_intersect g.id (subline_points g.points first last)).2
                ((subline_points g.points first last).headD ptZero)
                ((subline_points g.points first last).getLastD ptZero) with
            | false => simp [-List.headD_eq_head?_getD, -List.getLastD_eq_getLast?, hg, ho, hz, hlen, hsim, hint]
            | true =>
              cases hps : e.is_simple
                  (e.polygonize (e.unary_union (subline_points g.points first last ++
                    [(subline_points g.points first last).headD ptZero]))) with
              | false => simp [-List.headD_eq_head?_getD, -List.getLastD_eq_getLast?, hg, ho, hz, hlen, hsim, hint, hps]
              | true => simp [-List.headD_eq_head?_getD, -List.getLastD_eq_getLast?, hg, ho, hz, hlen, hsim, hint, hps]
        · cases hint : e.validate_intersection
              (e.get_segment_intersect g.id (subline_points g.points first last)).2
              ((subline_points g.points first last).headD ptZero)
              ((subline_points g.points first last).getLastD ptZero) with
          | false => simp [-List.headD_eq_head?_getD, -List.getLastD_eq_getLast?, hg, ho, hz, hlen, hint]
          | true =>
            cases hps : e.is_simple
                (e.polygonize (e.unary_union (subline_points g.points first last ++
                  [(subline_points g.points first last).headD ptZero]))) with
            | false => simp [-List.headD_eq_head?_getD, -List.getLastD_eq_getLast?, hg, ho, hz, hlen, hint, hps]
            | true => simp [-List.headD_eq_head?_getD, -List.getLastD_eq_getLast?, hg, ho, hz, hlen, hint, hps]
  · intro hg
    unfold validate_constraints
    rw [if_pos hg]

theorem C1_validator_order_witness :
    validate_constraints accEngine gRing5 0 4 = (false, []) :=
  (C1_validator_order accEngine gRing5 0 4).2 (by decide)

/-- C2: for a popped span `(first, last)` covering more than two points the
engine selects the interior point farthest from the chord (lowest index on
ties); if the farthest distance is at most the tolerance and the validator
accepts, exactly the interior vertices `first+1 .. last-1` are deleted and
the deleted-vertex count grows by `last - first - 1`; if the distance is
strictly greater than the tolerance the span is split at the farthest
point and both halves are pushed. -/
theorem C2_farthest_and_step (e : Engine) (tol : ℚ) (snap : List Point)
    (first last : ℕ) (rest : List (ℕ × ℕ)) (g : SimGeom) (d : ℕ) (ns : List String)
    (h1 : first + 1 < last) :
    ((first < (find_farthest_point e snap first last).1 ∧
      (find_farthest_point e snap first last).1 < last) ∧
    (find_farthest_point e snap first last).2
      = e.dist (vertexAt snap first) (vertexAt snap last)
          (vertexAt snap (find_farthest_point e snap first last).1) ∧
    (∀ i : ℕ, first < i → i < last →
      e.dist (vertexAt snap first) (vertexAt snap last) (vertexAt snap i)
        ≤ (find_farthest_point e snap first last).2) ∧
    (∀ i : ℕ, first < i → i < (find_farthest_point e snap first last).1 →
      e.dist (vertexAt snap first) (vertexAt snap last) (vertexAt snap i)
        < (find_farthest_point e snap first last).2)) ∧
    ((find_farthest_point e snap first last).2 ≤ tol →
      (validate_constraints e g first last).1 = true →
      process_loop e tol snap ((first, last) :: rest) g d ns
        = process_loop e tol snap rest (delete_vertex g (first + 1) (last - 1))
            (d + (last - first - 1)) (ns ++ (validate_constraints e g first last).2)) ∧
    (last < g.points.length →
      (delete_vertex g (first + 1) (last - 1)).points.length + (last - first - 1)
        = g.points.length ∧
      (∀ i : ℕ, i < first + 1 →
        (delete_vertex g (first + 1) (last - 1)).points.getD i ptZero
          = g.points.getD i ptZero) ∧
      (∀ k : ℕ, k < g.points.length - last →
        (delete_vertex g (first + 1) (last - 1)).points.getD (first + 1 + k) ptZero
          = g.points.getD (last + k) ptZero)) ∧
    (tol < (find_farthest_point e snap first last).2 →
      process_loop e tol snap ((first, last) :: rest) g d ns
        = process_loop e tol snap
            (((find_farthest_point e snap first last).1, last) ::
              (first, (find_farthest_point e snap first last).1) :: rest) g d ns) := by
  obtain ⟨ha, hb, hc, hd', he'⟩ := ffp_spec e snap h1
  refine ⟨⟨⟨ha, hb⟩, hc, hd', he'⟩, ?_, ?_, ?_⟩
  · intro hfd hv
    exact process_loop_collapse e tol snap rest g d ns h1 hfd hv
  · intro hlast
    have hpts := delete_vertex_points_eq g h1
    refine ⟨?_, ?_, ?_⟩
    · rw [hpts, deleteSeg_length h1 hlast]
      omega
    · intro i hi
      rw [hpts]
      exact deleteSeg_getD_left h1 hlast hi ptZero
    · intro k hk
      rw [hpts]
      exact deleteSeg_getD_right h1 hlast (by omega) ptZero
  · intro hfd
    exact process_loop_split e tol snap rest g d ns h1 hfd

theorem C2_farthest_and_step_witness :
    ((0 : ℕ) < (find_farthest_point accEngine gRing5.points 0 2).1 ∧
      (find_farthest_point accEngine gRing5.points 0 2).1 < 2) ∧
    process_loop accEngine 1 gRing5.points [(0, 2)] gRing5 0 []
      = process_loop accEngine 1 gRing5.points [] (delete_vertex gRing5 (0 + 1) (2 - 1))
          (0 + (2 - 0 - 1)) ([] ++ (validate_constraints accEngine gRing5 0 2).2) := by
  have h := C2_farthest_and_step accEngine 1 gRing5.points 0 2 [] gRing5 0 [] (by decide)
  exact ⟨h.1.1, h.2.1 (by decide) (by decide)⟩

/-- C3: for a closed geometry the validator rejects any collapse that would
leave at most 3 points, and consequently a run never takes a closed
geometry that has at least 4 points below 4 points — neither a single
`process_line` call nor the whole pass loop. -/
theorem C3_min_ring :
    (∀ (e : Engine) (g : SimGeom) (first last : ℕ),
      isClosedPts g.points = true →
      (g.points.length : ℤ) - ((last : ℤ) - (first : ℤ) - 1) ≤ 3 →
      (validate_constraints e g first last).1 = false) ∧
    (∀ (e : Engine) (tol : ℚ) (g : SimGeom),
      isClosedPts g.points = true → 4 ≤ g.points.length →
      isClosedPts (process_line e tol g).1.points = true ∧
      4 ≤ (process_line e tol g).1.points.length) ∧
    (∀ (e : Engine) (tol : ℚ) (fuel : ℕ) (gs : List SimGeom) (p t : ℕ)
        (out : List SimGeom × ℕ × ℕ),
      simplify_lines_aux e tol fuel gs p t = some out →
      (∀ g ∈ gs, isClosedPts g.points = true → 4 ≤ g.points.length) →
      ∀ g' ∈ out.1, isClosedPts g'.points = true → 4 ≤ g'.points.length) := by
  refine ⟨?_, ?_, ?_⟩
  · intro e g first last hc hle
    unfold validate_constraints
    rw [if_pos ⟨hc, hle⟩]
  · intro e tol g hc h4
    have h := process_line_ring e tol g
    exact ⟨by rw [h.1]; exact hc, h.2 hc h4⟩
  · intro e tol fuel gs p t out h hall
    exact simplify_aux_ring e tol fuel gs p t out h hall

theorem C3_min_ring_witness :
    (validate_constraints accEngine gRing5 0 4).1 = false ∧
    (isClosedPts (process_line accEngine 0 gRing5).1.points = true ∧
      4 ≤ (process_line accEngine 0 gRing5).1.points.length) :=
  ⟨C3_min_ring.1 accEngine gRing5 0 4 (by decide) (by decide),
   C3_min_ring.2.1 accEngine 0 gRing5 (by decide) (by decide)⟩

/-- C4: the outer pass loop reaches its fixed point within
`totalVtx gs + 1` passes (it terminates for every input); the vertex
bookkeeping is conserved — final vertex total plus reported deletion total
equals initial vertex total plus the accumulator, so the reported total is
exactly the sum of the per-pass deletions — the geometry list keeps its
length, and no geometry ever gains a vertex. -/
theorem C4_pass_loop_terminates (e : Engine) (tol : ℚ) (gs : List SimGeom) (p t : ℕ) :
    (simplify_lines_aux e tol (totalVtx gs + 1) gs p t).isSome ∧
    (∀ (fuel : ℕ) (out : List SimGeom × ℕ × ℕ),
      simplify_lines_aux e tol fuel gs p t = some out →
      totalVtx out.1 + out.2.2 = totalVtx gs + t ∧
      out.1.length = gs.length ∧
      ∀ i : ℕ, (out.1.getD i default).points.length
        ≤ (gs.getD i default).points.length) := by
  refine ⟨simplify_aux_term e tol _ gs p t (by omega), ?_⟩
  intro fuel out h
  exact ⟨simplify_aux_size e tol fuel gs p t out h,
    simplify_aux_length e tol fuel gs p t out h,
    simplify_aux_mono e tol fuel gs p t out h⟩

theorem aux_gLine3 : simplify_lines_aux colEngine 0 2 [gLine3] 0 0
    = some ([gLine3'], 2, 1) := by
  show simplify_lines_aux colEngine 0 (1 + 1) [gLine3] 0 0 = some ([gLine3'], 2, 1)
  rw [simplify_lines_aux]
  simp only [one_pass_gLine3]
  norm_num
  show simplify_lines_aux colEngine 0 (0 + 1) [gLine3'] (0 + 1) (0 + 1)
    = some ([gLine3'], 2, 1)
  rw [simplify_lines_aux]
  simp only [one_pass_gLine3']
  norm_num

theorem C4_pass_loop_terminates_witness :
    (simplify_lines_aux colEngine 0 (totalVtx [gLine3] + 1) [gLine3] 0 0).isSome ∧
    (totalVtx [gLine3'] + 1 = totalVtx [gLine3] + 0 ∧
      ([gLine3'] : List SimGeom).length = ([gLine3] : List SimGeom).length ∧
      ∀ i : ℕ, (([gLine3'] : List SimGeom).getD i default).points.length
        ≤ (([gLine3] : List SimGeom).getD i default).points.length) := by
  have h := C4_pass_loop_terminates colEngine 0 [gLine3] 0 0
  exact ⟨h.1, h.2 2 ([gLine3'], 2, 1) aux_gLine3⟩

/-- C5 counterexample: with tolerance 0 the run is not a no-op. On the open
collinear line (0,0)-(1,0)-(2,0), under an engine whose distance oracle
agrees with the Euclidean engine on every issued query (the interior point
lies exactly on the chord, distance 0), the pass loop deletes the interior
vertex: one vertex is deleted and the output differs from the input. -/
theorem C5_counterexample :
    simplify_lines_aux colEngine 0 2 [gLine3] 0 0 = some ([gLine3'], 2, 1) ∧
    gLine3'.points ≠ gLine3.points := by
  exact ⟨aux_gLine3, by decide⟩

/-- C5 (amended): with tolerance 0, a span qualifies for collapse only when
some interior point lies at engine distance 0 from its chord; when every
engine distance is positive, the run is a no-op — `process_line` changes
nothing and deletes nothing, and the pass loop stops after one pass with
every geometry's vertex sequence unchanged. -/
theorem C5_tolerance_zero (e : Engine) (hd : ∀ a b p, 0 < e.dist a b p)
    (gs : List SimGeom) (fuel p t : ℕ) :
    (∀ g : SimGeom, process_line e 0 g = ({ g with is_simplest := true }, 0, [])) ∧
    simplify_lines_aux e 0 (fuel + 1) gs p t = some ((one_pass e 0 gs).1, p + 1, t) ∧
    ∀ i : ℕ, ((one_pass e 0 gs).1.getD i default).points
      = (gs.getD i default).points := by
  have h := simplify_aux_posdist e 0 hd le_rfl fuel gs p t
  exact ⟨process_line_posdist e 0 hd le_rfl, h.1, h.2⟩

theorem C5_tolerance_zero_witness :
    process_line accEngine 0 gRing5 = ({ gRing5 with is_simplest := true }, 0, []) :=
  (C5_tolerance_zero accEngine (fun _ _ _ => by norm_num [accEngine]) [gRing5] 0 0 0).1
    gRing5

/-- C6: in `reduce` the debug integrity check is guarded by
`rb_results.is_structure_valid` — still Python `None` at that point — so
`validate_integrity` is never executed and its outcome is never stored:
`is_structure_valid` stays `none` in the returned statistics for every
input, and the whole computation is independent of the
`validate_structure` parameter. -/
theorem C6_integrity_never_runs (e : Engine) (tol : ℚ) (geoms : List SimGeom)
    (fuel : ℕ) :
    reduce e tol true geoms fuel = reduce e tol false geoms fuel ∧
    ∀ out : List SimGeom × RbResults, reduce e tol true geoms fuel = some out →
      out.2.is_structure_valid = none := by
  constructor
  · rfl
  · intro out hout
    unfold reduce at hout
    cases haux : simplify_lines_aux e tol fuel geoms 0 0 with
    | none =>
      rw [haux] at hout
      simp at hout
    | some val =>
      obtain ⟨gs', passes, total⟩ := val
      rw [haux] at hout
      simp only [Option.some.injEq] at hout
      rw [← hout]
      rfl

theorem C6_integrity_never_runs_witness :
    ((⟨[gLine3'], ⟨1, 1, 1, 2, none⟩⟩ : List SimGeom × RbResults)).2.is_structure_valid
      = none := by
  have hred : reduce colEngine 0 true [gLine3] 2
      = some ([gLine3'], ⟨1, 1, 1, 2, none⟩) := by
    unfold reduce
    rw [aux_gLine3]
    rfl
  exact (C6_integrity_never_runs colEngine 0 [gLine3] 2).2 _ hred

/-- C7 counterexample: a pass can change a geometry and still mark it
`is_simplest = true` — on the collinear line the pass deletes a vertex
(a change) while every constraint validation succeeds, so the flag stays
true; hence "marked true exactly when the pass made no changes" fails. -/
theorem C7_counterexample :
    (process_line colEngine 0 gLine3).1.is_simplest = true ∧
    (process_line colEngine 0 gLine3).2.1 = 1 ∧
    (process_line colEngine 0 gLine3).1.points ≠ gLine3.points := by
  rw [gLine3_eval]
  exact ⟨rfl, rfl, by decide⟩

/-- C7 (amended): after a geometry's per-pass processing the geometry is
marked `is_simplest = true` exactly when no collapse candidate failed
constraint validation during the pass (changes may have been committed
either way), and every geometry marked `is_simplest` is skipped unchanged
by all subsequent passes. -/
theorem C7_simplest_flag :
    (∀ (e : Engine) (tol : ℚ) (g : SimGeom),
      (process_line e tol g).1.is_simplest
        = !has_fail e tol g.points (init_stack g.points) { g with is_simplest := true }) ∧
    (∀ (e : Engine) (tol : ℚ) (gs : List SimGeom) (i : ℕ),
      (gs.getD i default).is_simplest = true →
      (one_pass e tol gs).1.getD i default = gs.getD i default) ∧
    (∀ (e : Engine) (tol : ℚ) (fuel : ℕ) (gs : List SimGeom) (p t : ℕ)
        (out : List SimGeom × ℕ × ℕ) (i : ℕ),
      simplify_lines_aux e tol fuel gs p t = some out →
      (gs.getD i default).is_simplest = true →
      out.1.getD i default = gs.getD i default) := by
  refine ⟨?_, ?_, ?_⟩
  · intro e tol g
    exact process_line_simplest e tol g
  · intro e tol gs i hs
    exact one_pass_skip e tol gs i hs
  · intro e tol fuel gs p t out i h hs
    exact simplify_aux_skip e tol fuel gs p t out h i hs

theorem C7_simplest_flag_witness :
    (one_pass colEngine 0 [gLine3']).1.getD 0 default
      = ([gLine3'] : List SimGeom).getD 0 default :=
  C7_simplest_flag.2.1 colEngine 0 [gLine3'] 0 (by decide)

/-- Concrete engine instance whose relative-zero tolerance 10 exceeds every
chord length its length oracle reports (constant 0, the true Euclidean
length of the degenerate chords used in the tests below). -/
def zrEngine : Engine :=
  { accEngine with zero_relative := 10, seg_length := fun _ _ => 0 }

/-- C8 counterexample: a candidate span whose chord is shorter than the
relative-zero tolerance but which is rejected by the degeneracy guard
first: the validator returns false with no diagnostic notice, so "a notice
is emitted for every such span" fails. -/
theorem C8_counterexample :
    zrEngine.seg_length ((subline_points gRing5.points 0 4).headD ptZero)
        ((subline_points gRing5.points 0 4).getLastD ptZero) < zrEngine.zero_relative ∧
    validate_constraints zrEngine gRing5 0 4 = (false, []) := by
  constructor
  · decide
  · decide

/-- C8 (amended): for every candidate span that passes the degeneracy guard
and whose replacement chord is strictly shorter than the relative-zero
tolerance, the simplicity test is skipped, the human-readable diagnostic
notice is emitted, and validation does not fail on account of the skipped
test: the outcome depends only on the remaining checks (cross-feature
intersection and sidedness when segments of other geometries are present),
and the condition is reported as a notice, never as a failure by itself. -/
theorem C8_degenerate_chord (e : Engine) (g : SimGeom) (first last : ℕ)
    (hg : ¬(isClosedPts g.points = true ∧
        (g.points.length : ℤ) - ((last : ℤ) - (first : ℤ) - 1) ≤ 3))
    (hz : e.seg_length ((subline_points g.points first last).headD ptZero)
        ((subline_points g.points first last).getLastD ptZero) < e.zero_relative) :
    (validate_constraints e g first last).2
      = [degenerate_notice ((subline_points g.points first last).headD ptZero)] ∧
    ((validate_constraints e g first last).1 = true ↔
      ((e.get_segment_intersect g.id (subline_points g.points first last)).2 ≠ [] →
        e.validate_intersection
            (e.get_segment_intersect g.id (subline_points g.points first last)).2
            ((subline_points g.points first last).headD ptZero)
            ((subline_points g.points first last).getLastD ptZero) = true ∧
          e.is_simple
            (e.polygonize (e.unary_union (subline_points g.points first last ++
              [(subline_points g.points first last).headD ptZero]))) = true ∧
          e.validate_sidedness
            (e.get_segment_intersect g.id (subline_points g.points first last)).2
            (e.polygonize (e.unary_union (subline_points g.points first last ++
              [(subline_points g.points first last).headD ptZero]))) = true)) := by
  have hz' : ¬e.zero_relative ≤
      e.seg_length ((subline_points g.points first last).headD ptZero)
        ((subline_points g.points first last).getLastD ptZero) := not_le.mpr hz
  constructor
  · unfold validate_constraints
    rw [if_neg hg]
    simp [-List.headD_eq_head?_getD, -List.getLastD_eq_getLast?, hz']
  · unfold validate_constraints
    rw [if_neg hg]
    by_cases ho : (e.get_segment_intersect g.id (subline_points g.points first last)).2 = []
    · simp [-List.headD_eq_head?_getD, -List.getLastD_eq_getLast?, hz', ho]
    · have hlen : (e.get_segment_intersect g.id
          (subline_points g.points first last)).2.length ≥ 1 := by
        have := List.length_pos.mpr ho
        omega
      cases hint : e.validate_intersection
          (e.get_segment_intersect g.id (subline_points g.points first last)).2
          ((subline_points g.points first last).headD ptZero)
          ((subline_points g.points first last).getLastD ptZero) with
      | false =>
        simp [-List.headD_eq_head?_getD, -List.getLastD_eq_getLast?, hz', ho, hlen, hint]
      | true =>
        cases hps : e.is_simple
            (e.polygonize (e.unary_union (subline_points g.points first last ++
              [(subline_points g.points first last).headD ptZero]))) with
        | false =>
          simp [-List.headD_eq_head?_getD, -List.getLastD_eq_getLast?, hz', ho, hlen,
            hint, hps]
        | true =>
          simp [-List.headD_eq_head?_getD, -List.getLastD_eq_getLast?, hz', ho, hlen,
            hint, hps]

theorem C8_degenerate_chord_witness :
    (validate_constraints zrEngine gLine3 0 2).2
      = [degenerate_notice ((subline_points gLine3.points 0 2).headD ptZero)] :=
  (C8_degenerate_chord zrEngine gLine3 0 2 (by decide) (by decide)).1

/-- C9: per-geometry stack initialization — an open geometry pushes exactly
the whole-index span `(0, lastIndex)`, a closed geometry with at least 5
points pushes exactly the spans `(0, mid)` and `(mid, lastIndex)` with
`mid = numPoints / 2` (the latter on top), and a closed geometry with
fewer than 5 points gets no spans and is left untouched — no vertex
deleted, vertex sequence unchanged. -/
theorem C9_stack_init (e : Engine) (tol : ℚ) (g : SimGeom) :
    (isClosedPts g.points = false → init_stack g.points = [(0, g.points.length - 1)]) ∧
    (isClosedPts g.points = true → 5 ≤ g.points.length →
      init_stack g.points
        = [(g.points.length / 2, g.points.length - 1), (0, g.points.length / 2)]) ∧
    (isClosedPts g.points = true → g.points.length < 5 →
      init_stack g.points = [] ∧
      process_line e tol g = ({ g with is_simplest := true }, 0, [])) := by
  refine ⟨?_, ?_, ?_⟩
  · intro h
    simp [init_stack, h]
  · intro h h5
    simp [init_stack, h, h5]
  · intro h h5
    have hstk : init_stack g.points = [] := by
      have h5' : ¬g.points.length ≥ 5 := by omega
      simp [init_stack, h, h5']
    refine ⟨hstk, ?_⟩
    rw [process_line, hstk, process_loop]

theorem C9_stack_init_witness :
    init_stack gRing5.points
      = [(gRing5.points.length / 2, gRing5.points.length - 1),
         (0, gRing5.points.length / 2)] :=
  (C9_stack_init accEngine 0 gRing5).2.1 (by decide) (by decide)

/-- C10: work-stack discipline of `process_line` — the initial stack
satisfies the ordering invariant and trivially agrees with the snapshot;
under the invariant every span still below the popped top lies entirely at
indices `≤ first`, so the rightmost span is processed first; a committed
collapse touches only indices strictly above every remaining span's last
index (the prefix up to `first` is unchanged), keeps the remaining spans
valid references into the shortened vertex sequence, and preserves their
agreement with the snapshot; and splitting a span preserves both the
invariant and the agreement. -/
theorem C10_stack_discipline (e : Engine) (tol : ℚ) (g : SimGeom) (first last : ℕ)
    (rest : List (ℕ × ℕ)) (snap : List Point) :
    (g.points ≠ [] → StackInv (init_stack g.points) g.points.length) ∧
    AgreeBelow g.points g.points (init_stack g.points) ∧
    (StackInv ((first, last) :: rest) g.points.length → ∀ s ∈ rest, s.2 ≤ first) ∧
    (StackInv ((first, last) :: rest) g.points.length → first + 1 < last →
      StackInv (((find_farthest_point e snap first last).1, last) ::
        (first, (find_farthest_point e snap first last).1) :: rest)
        g.points.length) ∧
    (StackInv ((first, last) :: rest) g.points.length → first + 1 < last →
      (∀ i ≤ first, (delete_vertex g (first + 1) (last - 1)).points.getD i ptZero
          = g.points.getD i ptZero) ∧
      StackInv rest (delete_vertex g (first + 1) (last - 1)).points.length ∧
      (delete_vertex g (first + 1) (last - 1)).points.length + (last - first - 1)
        = g.points.length) ∧
    (StackInv ((first, last) :: rest) g.points.length → first + 1 < last →
      AgreeBelow snap g.points ((first, last) :: rest) →
      AgreeBelow snap (delete_vertex g (first + 1) (last - 1)).points rest) ∧
    (∀ fi : ℕ, first < fi → fi < last →
      AgreeBelow snap g.points ((first, last) :: rest) →
      AgreeBelow snap g.points ((fi, last) :: (first, fi) :: rest)) := by
  refine ⟨?_, ?_, ?_, ?_, ?_, ?_, ?_⟩
  · intro h
    exact init_StackInv h
  · intro s _ i _
    rfl
  · intro hinv s hs
    obtain ⟨hfl, hln, hrest⟩ := hinv
    have := StackInv_spans hrest s hs
    omega
  · intro hinv h1
    obtain ⟨hfl, hln, hrest⟩ := hinv
    have hb := ffp_bounds e snap h1
    exact ⟨by omega, by omega, by omega, by omega, hrest⟩
  · intro hinv h1
    obtain ⟨hfl, hln, hrest⟩ := hinv
    have hpts := delete_vertex_points_eq g h1
    have hlen : (delete_vertex g (first + 1) (last - 1)).points.length
        = g.points.length - (last - first - 1) := by
      rw [hpts]
      exact deleteSeg_length h1 hln
    refine ⟨?_, ?_, ?_⟩
    · intro i hi
      rw [hpts]
      exact deleteSeg_getD_left h1 hln (by omega) ptZero
    · apply StackInv_mono hrest
      omega
    · omega
  · intro hinv h1 hag s hs i hi
    obtain ⟨hfl, hln, hrest⟩ := hinv
    have hsf : s.2 ≤ first := by
      have := StackInv_spans hrest s hs
      omega
    have hpts := delete_vertex_points_eq g h1
    rw [hpts, deleteSeg_getD_left h1 hln (by omega) ptZero]
    exact hag s (List.mem_cons_of_mem _ hs) i hi
  · intro fi h1 h2 hag s hs i hi
    rcases List.mem_cons.mp hs with rfl | hs
    · exact hag (first, last) (List.mem_cons_self _ _) i hi
    · rcases List.mem_cons.mp hs with rfl | hs
      · exact hag (first, last) (List.mem_cons_self _ _) i
          (le_trans hi (le_of_lt h2))
      · exact hag s (List.mem_cons_of_mem _ hs) i hi

theorem C10_stack_discipline_witness :
    (∀ i ≤ 2, (delete_vertex gRing5 (2 + 1) (4 - 1)).points.getD i ptZero
        = gRing5.points.getD i ptZero) ∧
    StackInv [((0 : ℕ), (2 : ℕ))] (delete_vertex gRing5 (2 + 1) (4 - 1)).points.length ∧
    (delete_vertex gRing5 (2 + 1) (4 - 1)).points.length + (4 - 2 - 1)
      = gRing5.points.length :=
  (C10_stack_discipline accEngine 0 gRing5 2 4 [(0, 2)] gRing5.points).2.2.2.2.1
    (show StackInv ((2, 4) :: [(0, 2)]) gRing5.points.length from
      ⟨by decide, by decide, by decide, by decide, trivial⟩)
    (by decide)
